import Mathlib

/-!
Verification of the ring-compositing core of `src/commands/ring.rs`
(`overlay_ring`, `get_ring_width`, `apply_transparency`) against its
natural-language specification.

Pixel buffers (`image::RgbaImage` / `DynamicImage` in RGBA8 form) are
modelled as total pixel functions together with explicit dimensions; the
8-bit channels are modelled as natural numbers (the source's `u8` values
always lie in `0..=255`).  `f32` computations on integer-valued inputs
(`hypot` in `apply_transparency`) are modelled by the exact squared-distance
comparison over `ℤ`, and the `f32` source-over arithmetic of the `image`
crate's `Rgba::blend` is modelled by the same formula in exact integer
arithmetic over a common denominator, with the final `NumCast` conversion
back to `u8` as truncation.
-/

/-- One RGBA pixel: four 8-bit channels (values in `0..=255`). -/
structure Pixel where
  r : ℕ
  g : ℕ
  b : ℕ
  a : ℕ
deriving DecidableEq, Repr

/-- A pixel buffer (`image::RgbaImage`): explicit dimensions plus a total
pixel function. -/
@[ext]
structure Image where
  width : ℕ
  height : ℕ
  pix : ℕ → ℕ → Pixel

/-- Model of `get_ring_width` (ring.rs:153-160): count the pixels with
non-zero alpha in the single column `x = width / 2`, over the top half
`y ∈ [0, height / 2)`. -/
def get_ring_width (ring_img : Image) : ℕ :=
  ∑ y in Finset.range (ring_img.height / 2),
    if (ring_img.pix (ring_img.width / 2) y).a ≠ 0 then 1 else 0

/-- Model of `apply_transparency` (ring.rs:143-151): zero the alpha channel
of every pixel strictly farther than `radius` from `(cx, cy)`.  The source
receives `cx`, `cy` as `f32` but is only ever called with the integer values
`width / 2`, `height / 2`; it compares `f32::hypot (x - cx) (y - cy)` with
the integer radius, which on integer arguments is the exact comparison
`(x - cx)² + (y - cy)² > radius²` used here. -/
def apply_transparency (buffer : Image) (radius cx cy : ℕ) : Image :=
  { buffer with
    pix := fun x y =>
      if ((x : ℤ) - cx) ^ 2 + ((y : ℤ) - cy) ^ 2 > (radius : ℤ) ^ 2 then
        { buffer.pix x y with a := 0 }
      else
        buffer.pix x y }

/-- Model of `image::Rgba::<u8>::blend` (the per-pixel operation of
`image::imageops::overlay`): source-over alpha compositing.  The crate
returns the bottom pixel unchanged when the top alpha is `0`, the top pixel
when it is `255`, and otherwise computes source-over compositing in `f32`
and truncates each channel back to `u8`; that `f32` formula is modelled in
exact integer arithmetic over the common denominator
`D = 255²·(bg.a/255 + fg.a/255 - (bg.a/255)·(fg.a/255))`. -/
def blendPixel (bg fg : Pixel) : Pixel :=
  if fg.a = 0 then bg
  else if fg.a = 255 then fg
  else
    let D := 255 * bg.a + 255 * fg.a - bg.a * fg.a
    if D = 0 then bg
    else
      Pixel.mk
        ((255 * fg.r * fg.a + bg.r * bg.a * (255 - fg.a)) / D)
        ((255 * fg.g * fg.a + bg.g * bg.a * (255 - fg.a)) / D)
        ((255 * fg.b * fg.a + bg.b * bg.a * (255 - fg.a)) / D)
        (D / 255)

/-- Model of `image::imageops::overlay bottom top 0 0` (ring.rs:134): blend
the top image over the bottom one, pixel by pixel, on the overlap of their
extents. -/
def overlay_img (bottom top : Image) : Image :=
  { bottom with
    pix := fun x y =>
      if x < min bottom.width top.width ∧ y < min bottom.height top.height then
        blendPixel (bottom.pix x y) (top.pix x y)
      else
        bottom.pix x y }

/-- Model of `GenericImage::copy_from other x y` (used at ring.rs:133): fails
with a dimension mismatch when the pasted image does not fit at offset
`(x, y)`, otherwise pastes it there. -/
def copy_from (buffer other : Image) (x y : ℕ) : Except String Image :=
  if buffer.width < other.width + x ∨ buffer.height < other.height + y then
    Except.error "DimensionMismatch"
  else
    Except.ok
      { buffer with
        pix := fun i j =>
          if x ≤ i ∧ i < x + other.width ∧ y ≤ j ∧ j < y + other.height then
            other.pix (i - x) (j - y)
          else
            buffer.pix i j }

/-- Model of `RgbaImage::new` (ring.rs:132): an all-transparent (all-zero)
buffer. -/
def mkCanvas (w h : ℕ) : Image :=
  { width := w, height := h, pix := fun _ _ => Pixel.mk 0 0 0 0 }

/-- Nearest-neighbour source index when resizing a line of `src` pixels to
`dst` pixels (pixel-centre aligned, as in the `image` crate's nearest
sampling), clamped into bounds. -/
def nearestIndex (src dst u : ℕ) : ℕ :=
  min (src - 1) (round (((u : ℚ) + 1 / 2) * src / dst - 1 / 2)).toNat

/-- Model of `DynamicImage::resize_to_fill n n FilterType::Nearest` on the
square buffers the source feeds it (ring.rs:124 and ring.rs:128-130): for a
square source and a square target the crate's aspect-ratio fitting and final
crop degenerate to an exact nearest-neighbour resize to `nw × nh`; for a
target of `0` the crate's final crop yields a `0 × 0` buffer, as here. -/
def resize_to_fill (img : Image) (nw nh : ℕ) : Image :=
  { width := nw, height := nh,
    pix := fun x y => img.pix (nearestIndex img.width nw x) (nearestIndex img.height nh y) }

/-- The ring-normalising step of `overlay_ring` (ring.rs:121-126): downscale
the ring to the avatar's side when it is larger, otherwise keep it
unchanged. -/
def normalize_ring (ring : Image) (avatar_side : ℕ) : Image :=
  if ring.width > avatar_side then resize_to_fill ring avatar_side avatar_side else ring

/-- Model of `overlay_ring` (ring.rs:115-140).  The source computes
`ring_side - 2 * circumference_width` in `u32`; on square rings the
detected width is at most `ring_side / 2`, so the subtraction cannot
underflow and agrees with the truncated `ℕ` subtraction used here. -/
def overlay_ring (avatar ring : Image) : Except String Image :=
  let avatar_side := avatar.width
  let ring1 := normalize_ring ring avatar_side
  let ring_side := ring1.width
  let circumference_width := get_ring_width ring1
  let scaled_avatar :=
    resize_to_fill avatar (ring_side - 2 * circumference_width)
      (ring_side - 2 * circumference_width)
  let buffer := mkCanvas ring_side ring_side
  match copy_from buffer scaled_avatar circumference_width circumference_width with
  | Except.error e => Except.error e
  | Except.ok buffer1 =>
      let buffer2 := overlay_img buffer1 ring1
      Except.ok (apply_transparency buffer2 (ring_side / 2) (buffer2.width / 2) (buffer2.height / 2))

/-- Whether an `ImageResult` is a success (`Ok`). -/
def exceptIsOk {ε α : Type} : Except ε α → Bool
  | Except.ok _ => true
  | Except.error _ => false

/-- Modelled from the spec (§8, a test input, not source code): the synthetic
test ring — "a synthetic ring of known constant thickness t (opaque band
from radius s/2 - t to s/2, fully transparent inside, fully transparent
outside)".  The band is the set of pixels whose distance `r` from the centre
pixel `(⌊s/2⌋, ⌊s/2⌋)` (the centre convention the source itself uses in
`overlay_ring` / `apply_transparency`) satisfies `s/2 - t ≤ r < s/2`,
encoded exactly by squaring: `(s - 2t)² ≤ 4·dist² < s²`. -/
def syntheticRing (s t : ℕ) : Image :=
  { width := s, height := s,
    pix := fun x y =>
      Pixel.mk 255 255 255
        (if ((s : ℤ) - 2 * t) ^ 2 ≤
              4 * (((x : ℤ) - (s / 2 : ℕ)) ^ 2 + ((y : ℤ) - (s / 2 : ℕ)) ^ 2) ∧
            4 * (((x : ℤ) - (s / 2 : ℕ)) ^ 2 + ((y : ℤ) - (s / 2 : ℕ)) ^ 2) < (s : ℤ) ^ 2
         then 255 else 0) }

example : get_ring_width (syntheticRing 10 3) = 3 := by decide

example : get_ring_width (syntheticRing 9 4) = 4 := by decide

example : get_ring_width (syntheticRing 12 5) = 5 := by decide

@[simp] lemma syntheticRing_width (s t : ℕ) : (syntheticRing s t).width = s := rfl

@[simp] lemma syntheticRing_height (s t : ℕ) : (syntheticRing s t).height = s := rfl

lemma sq_le_sq_nat {a b : ℕ} : a ^ 2 ≤ b ^ 2 ↔ a ≤ b := by
  constructor
  · intro h
    by_contra hb
    push_neg at hb
    exact absurd h (not_le.mpr (Nat.pow_lt_pow_left hb (by norm_num)))
  · intro h
    exact Nat.pow_le_pow_left h 2

lemma sq_lt_sq_nat {a b : ℕ} : a ^ 2 < b ^ 2 ↔ a < b := by
  constructor
  · intro h
    by_contra hb
    push_neg at hb
    exact absurd (Nat.pow_le_pow_left hb 2) (not_le.mpr h)
  · intro h
    exact Nat.pow_lt_pow_left h (by norm_num)

lemma get_ring_width_eq_card (img : Image) :
    get_ring_width img =
      ((Finset.range (img.height / 2)).filter
        (fun y => (img.pix (img.width / 2) y).a ≠ 0)).card := by
  rw [get_ring_width, Finset.card_filter]

lemma get_ring_width_le (img : Image) : get_ring_width img ≤ img.height / 2 := by
  rw [get_ring_width_eq_card]
  calc ((Finset.range (img.height / 2)).filter
          (fun y => (img.pix (img.width / 2) y).a ≠ 0)).card
      ≤ (Finset.range (img.height / 2)).card := Finset.card_filter_le _ _
    _ = img.height / 2 := Finset.card_range _

lemma copy_from_ok (buffer other : Image) (x y : ℕ)
    (h1 : other.width + x ≤ buffer.width) (h2 : other.height + y ≤ buffer.height) :
    ∃ res, copy_from buffer other x y = Except.ok res := by
  rw [copy_from, if_neg (by omega)]
  exact ⟨_, rfl⟩

lemma overlay_ring_isOk_of (avatar ring : Image)
    (h : 2 * get_ring_width (normalize_ring ring avatar.width) ≤
        (normalize_ring ring avatar.width).width) :
    exceptIsOk (overlay_ring avatar ring) = true := by
  obtain ⟨res, hres⟩ :=
    copy_from_ok
      (mkCanvas (normalize_ring ring avatar.width).width
        (normalize_ring ring avatar.width).width)
      (resize_to_fill avatar
        ((normalize_ring ring avatar.width).width -
          2 * get_ring_width (normalize_ring ring avatar.width))
        ((normalize_ring ring avatar.width).width -
          2 * get_ring_width (normalize_ring ring avatar.width)))
      (get_ring_width (normalize_ring ring avatar.width))
      (get_ring_width (normalize_ring ring avatar.width))
      (by simp only [resize_to_fill, mkCanvas]; omega)
      (by simp only [resize_to_fill, mkCanvas]; omega)
  simp only [overlay_ring]
  rw [hres]
  rfl

lemma syntheticRing_column (s t y : ℕ) (hts : 2 * t < s) (hy : y < s / 2) :
    (((syntheticRing s t).pix (s / 2) y).a ≠ 0 ↔
      (s - 2 * t ≤ 2 * (s / 2 - y) ∧ 2 * (s / 2 - y) < s)) := by
  have halpha : ((syntheticRing s t).pix (s / 2) y).a =
      if ((s : ℤ) - 2 * t) ^ 2 ≤
            4 * ((((s / 2 : ℕ) : ℤ) - ((s / 2 : ℕ) : ℤ)) ^ 2 +
              ((y : ℤ) - ((s / 2 : ℕ) : ℤ)) ^ 2) ∧
          4 * ((((s / 2 : ℕ) : ℤ) - ((s / 2 : ℕ) : ℤ)) ^ 2 +
            ((y : ℤ) - ((s / 2 : ℕ) : ℤ)) ^ 2) < (s : ℤ) ^ 2
      then 255 else 0 := rfl
  rw [halpha]
  have hzero : (((s / 2 : ℕ) : ℤ) - ((s / 2 : ℕ) : ℤ)) = 0 := sub_self _
  rw [hzero]
  have hsq : (4 : ℤ) * ((0 : ℤ) ^ 2 + ((y : ℤ) - ((s / 2 : ℕ) : ℤ)) ^ 2) =
      ((2 * (s / 2 - y) : ℕ) : ℤ) ^ 2 := by
    have hmy : ((y : ℤ) - ((s / 2 : ℕ) : ℤ)) = -(((s / 2 - y : ℕ) : ℤ)) := by omega
    rw [hmy]
    push_cast
    ring
  rw [hsq]
  have hst : ((s : ℤ) - 2 * t) = ((s - 2 * t : ℕ) : ℤ) := by omega
  rw [hst]
  have hcond : (((s - 2 * t : ℕ) : ℤ) ^ 2 ≤ ((2 * (s / 2 - y) : ℕ) : ℤ) ^ 2 ∧
      ((2 * (s / 2 - y) : ℕ) : ℤ) ^ 2 < (s : ℤ) ^ 2) ↔
      (s - 2 * t ≤ 2 * (s / 2 - y) ∧ 2 * (s / 2 - y) < s) := by
    constructor
    · rintro ⟨h1, h2⟩
      exact ⟨sq_le_sq_nat.mp (by exact_mod_cast h1), sq_lt_sq_nat.mp (by exact_mod_cast h2)⟩
    · rintro ⟨h1, h2⟩
      exact ⟨by exact_mod_cast sq_le_sq_nat.mpr h1, by exact_mod_cast sq_lt_sq_nat.mpr h2⟩
  by_cases hC : (((s - 2 * t : ℕ) : ℤ) ^ 2 ≤ ((2 * (s / 2 - y) : ℕ) : ℤ) ^ 2 ∧
      ((2 * (s / 2 - y) : ℕ) : ℤ) ^ 2 < (s : ℤ) ^ 2)
  · rw [if_pos hC]
    simpa using hcond.mp hC
  · rw [if_neg hC]
    simpa using fun hl => hC (hcond.mpr hl)

/-- C5: `get_ring_width` applied to the spec's synthetic ring of side `s`
and constant thickness `t` (with `0 < t < s/2`) returns exactly `t`. -/
theorem synthetic_ring_width_exact (s t : ℕ) (ht : 0 < t) (hts : 2 * t < s) :
    get_ring_width (syntheticRing s t) = t := by
  rw [get_ring_width_eq_card]
  rw [syntheticRing_height, syntheticRing_width]
  have hfe : (Finset.range (s / 2)).filter
        (fun y => ((syntheticRing s t).pix (s / 2) y).a ≠ 0) =
      (Finset.range (s / 2)).filter
        (fun y => s - 2 * t ≤ 2 * (s / 2 - y) ∧ 2 * (s / 2 - y) < s) := by
    ext y
    simp only [Finset.mem_filter, Finset.mem_range]
    constructor
    · rintro ⟨hy, hcond⟩
      exact ⟨hy, (syntheticRing_column s t y hts hy).mp hcond⟩
    · rintro ⟨hy, hcond⟩
      exact ⟨hy, (syntheticRing_column s t y hts hy).mpr hcond⟩
  rw [hfe]
  rcases Nat.even_or_odd s with hpar | hpar
  · obtain ⟨c, rfl⟩ := hpar
    have hset : (Finset.range ((c + c) / 2)).filter
          (fun y => c + c - 2 * t ≤ 2 * ((c + c) / 2 - y) ∧ 2 * ((c + c) / 2 - y) < c + c) =
        Finset.Icc 1 t := by
      ext y
      simp only [Finset.mem_filter, Finset.mem_range, Finset.mem_Icc]
      omega
    rw [hset, Nat.card_Icc]
    omega
  · obtain ⟨c, rfl⟩ := hpar
    have hset : (Finset.range ((2 * c + 1) / 2)).filter
          (fun y => 2 * c + 1 - 2 * t ≤ 2 * ((2 * c + 1) / 2 - y) ∧
            2 * ((2 * c + 1) / 2 - y) < 2 * c + 1) =
        Finset.range t := by
      ext y
      simp only [Finset.mem_filter, Finset.mem_range]
      omega
    rw [hset, Finset.card_range]

/-- C5 witness: the theorem instantiated at side 10, thickness 3. -/
theorem synthetic_ring_width_exact_witness :
    0 < 3 ∧ 2 * 3 < 10 ∧ get_ring_width (syntheticRing 10 3) = 3 :=
  ⟨by decide, by decide, synthetic_ring_width_exact 10 3 (by decide) (by decide)⟩

/-- C6: the disc-masking stage is idempotent — applying `apply_transparency`
twice with the same radius and centre yields the same buffer as applying it
once, for every canvas. -/
theorem apply_transparency_idem (buffer : Image) (radius cx cy : ℕ) :
    apply_transparency (apply_transparency buffer radius cx cy) radius cx cy =
      apply_transparency buffer radius cx cy := by
  unfold apply_transparency
  apply Image.ext
  · rfl
  · rfl
  · funext x y
    by_cases h : ((x : ℤ) - cx) ^ 2 + ((y : ℤ) - cy) ^ 2 > (radius : ℤ) ^ 2
    · simp [h]
    · simp [h]

/-- C7: `apply_transparency` only ever clears alpha outside the disc — the
red, green and blue channels of every pixel are unchanged, and every pixel
at distance at most `radius` from the centre is entirely unchanged. -/
theorem apply_transparency_frame (buffer : Image) (radius cx cy x y : ℕ) :
    ((apply_transparency buffer radius cx cy).pix x y).r = (buffer.pix x y).r ∧
    ((apply_transparency buffer radius cx cy).pix x y).g = (buffer.pix x y).g ∧
    ((apply_transparency buffer radius cx cy).pix x y).b = (buffer.pix x y).b ∧
    (((x : ℤ) - cx) ^ 2 + ((y : ℤ) - cy) ^ 2 ≤ (radius : ℤ) ^ 2 →
      (apply_transparency buffer radius cx cy).pix x y = buffer.pix x y) := by
  unfold apply_transparency
  by_cases h : ((x : ℤ) - cx) ^ 2 + ((y : ℤ) - cy) ^ 2 > (radius : ℤ) ^ 2
  · exact ⟨by simp [h], by simp [h], by simp [h], fun hle => absurd h (not_lt.mpr hle)⟩
  · simp [h]

/-- C9: the detected ring width is at most `⌊height / 2⌋`, since the scan
counts at most the `⌊height / 2⌋` pixels of the top half of one column. -/
theorem get_ring_width_le_half_height (img : Image) :
    get_ring_width img ≤ img.height / 2 :=
  get_ring_width_le img

/-- C10: `get_ring_width` reads only the alpha channel of the scanned
half-column — two images of equal dimensions with pointwise equal alphas
there get the same width, whatever their colour channels hold. -/
theorem get_ring_width_alpha_only (img1 img2 : Image)
    (hw : img1.width = img2.width) (hh : img1.height = img2.height)
    (ha : ∀ y < img1.height / 2,
      (img1.pix (img1.width / 2) y).a = (img2.pix (img2.width / 2) y).a) :
    get_ring_width img1 = get_ring_width img2 := by
  rw [get_ring_width, get_ring_width, ← hw, ← hh]
  refine Finset.sum_congr rfl fun y hy => ?_
  rw [ha y (Finset.mem_range.mp hy), hw]

/-- C8: the ring normaliser returns the ring unchanged whenever its side is
at most the avatar's, and otherwise produces a new square buffer of side
exactly `avatar_side` by the nearest-neighbour resize; it never upscales. -/
theorem normalize_ring_spec (ring : Image) (avatar_side : ℕ) :
    (ring.width ≤ avatar_side → normalize_ring ring avatar_side = ring) ∧
    (avatar_side < ring.width →
      normalize_ring ring avatar_side = resize_to_fill ring avatar_side avatar_side ∧
      (normalize_ring ring avatar_side).width = avatar_side ∧
      (normalize_ring ring avatar_side).height = avatar_side) ∧
    (normalize_ring ring avatar_side).width ≤ ring.width := by
  unfold normalize_ring
  by_cases h : ring.width > avatar_side
  · rw [if_pos h]
    exact ⟨fun hle => absurd h (not_lt.mpr hle), fun _ => ⟨rfl, rfl, rfl⟩, by
      show avatar_side ≤ ring.width
      omega⟩
  · rw [if_neg h]
    exact ⟨fun _ => rfl, fun hlt => absurd hlt h, le_refl _⟩

/-- A 2×2 ring with every pixel fully transparent (alpha 0). -/
def ringTransparent2 : Image :=
  { width := 2, height := 2, pix := fun _ _ => Pixel.mk 9 9 9 0 }

/-- A 3×3 ring with every pixel fully transparent (alpha 0). -/
def ringTransparent3 : Image :=
  { width := 3, height := 3, pix := fun _ _ => Pixel.mk 7 7 7 0 }

/-- A 2×2 ring with every pixel fully opaque. -/
def ringOpaque2 : Image :=
  { width := 2, height := 2, pix := fun _ _ => Pixel.mk 50 60 70 255 }

/-- A 3×3 ring with every pixel fully opaque. -/
def ringOpaque3 : Image :=
  { width := 3, height := 3, pix := fun _ _ => Pixel.mk 40 40 40 255 }

/-- A 2×2 fully opaque avatar. -/
def avatarOpaque2 : Image :=
  { width := 2, height := 2, pix := fun _ _ => Pixel.mk 10 20 30 255 }

/-- A 3×3 fully opaque avatar. -/
def avatarOpaque3 : Image :=
  { width := 3, height := 3, pix := fun _ _ => Pixel.mk 11 21 31 255 }

/-- C8 witness: on a 2×2 ring and avatar side 3 the normaliser is the
identity, and on a 3×3 ring and avatar side 2 it yields side 2. -/
theorem normalize_ring_spec_witness :
    (ringOpaque2.width ≤ 3 ∧ normalize_ring ringOpaque2 3 = ringOpaque2) ∧
    (2 < ringOpaque3.width ∧ (normalize_ring ringOpaque3 2).width = 2) :=
  ⟨⟨by decide, (normalize_ring_spec ringOpaque2 3).1 (by decide)⟩,
   ⟨by decide, ((normalize_ring_spec ringOpaque3 2).2.1 (by decide)).2.1⟩⟩

/-- C7 witness: on a concrete 5×5 opaque canvas, the pixel (1,1) lies inside
radius 2 of centre (2,2) and is entirely unchanged by the mask. -/
theorem apply_transparency_frame_witness :
    (((1 : ℤ) - (2 : ℕ)) ^ 2 + ((1 : ℤ) - (2 : ℕ)) ^ 2 ≤ ((2 : ℕ) : ℤ) ^ 2) ∧
      (apply_transparency avatarOpaque3 2 2 2).pix 1 1 = avatarOpaque3.pix 1 1 :=
  ⟨by decide, (apply_transparency_frame avatarOpaque3 2 2 2 1 1).2.2.2 (by decide)⟩

/-- A 2×2 image, red, with alpha 200 everywhere. -/
def ringRedA : Image :=
  { width := 2, height := 2, pix := fun _ _ => Pixel.mk 255 0 0 200 }

/-- A 2×2 image, blue, with alpha 200 everywhere: same alphas as `ringRedA`,
different colour channels. -/
def ringBlueB : Image :=
  { width := 2, height := 2, pix := fun _ _ => Pixel.mk 0 0 255 200 }

/-- C10 witness: two 2×2 images agreeing only in alpha get the same width. -/
theorem get_ring_width_alpha_only_witness :
    ringRedA.width = ringBlueB.width ∧ ringRedA.height = ringBlueB.height ∧
      (∀ y < ringRedA.height / 2,
        (ringRedA.pix (ringRedA.width / 2) y).a = (ringBlueB.pix (ringBlueB.width / 2) y).a) ∧
      get_ring_width ringRedA = get_ring_width ringBlueB :=
  ⟨rfl, rfl, by decide, get_ring_width_alpha_only ringRedA ringBlueB rfl rfl (by decide)⟩

/-- C1 counterexample: on a fully transparent 2×2 ring the detected width is
0, yet `overlay_ring` succeeds (the avatar is simply fitted to the full ring
side), contradicting the claim that the pipeline must return a failure. -/
theorem overlay_ring_zero_width_succeeds_cex :
    get_ring_width (normalize_ring ringTransparent2 avatarOpaque2.width) = 0 ∧
      exceptIsOk (overlay_ring avatarOpaque2 ringTransparent2) = true := by
  constructor
  · decide
  · decide

/-- C1 (amended): when the detected ring width is 0, the avatar-fitting stage
does not fail — the avatar is resized to the full ring side and
`overlay_ring` returns a composed output buffer. -/
theorem overlay_ring_zero_width_ok (avatar ring : Image)
    (h : get_ring_width (normalize_ring ring avatar.width) = 0) :
    exceptIsOk (overlay_ring avatar ring) = true := by
  apply overlay_ring_isOk_of
  omega

/-- C1 witness: the amended theorem at a concrete transparent 3×3 ring. -/
theorem overlay_ring_zero_width_ok_witness :
    get_ring_width (normalize_ring ringTransparent3 avatarOpaque3.width) = 0 ∧
      exceptIsOk (overlay_ring avatarOpaque3 ringTransparent3) = true :=
  ⟨by decide, overlay_ring_zero_width_ok avatarOpaque3 ringTransparent3 (by decide)⟩

/-- C2 counterexample: a fully opaque 2×2 ring has detected width
1 = ring_side/2, so the opening side is 0, yet `overlay_ring` succeeds
(pasting an empty 0×0 avatar), contradicting the claim that the pipeline
aborts with a failure result. -/
theorem overlay_ring_zero_opening_succeeds_cex :
    ringOpaque2.width / 2 ≤ get_ring_width ringOpaque2 ∧
      exceptIsOk (overlay_ring avatarOpaque2 ringOpaque2) = true := by
  constructor
  · decide
  · decide

/-- C2 (amended): on square rings the detected width never exceeds
`ring_side / 2` (so a negative opening is unreachable and the `u32`
subtraction cannot panic), and even when the opening side is 0 the pipeline
does not abort: `overlay_ring` always returns a success on square rings. -/
theorem overlay_ring_square_ok (avatar ring : Image)
    (hsq : ring.width = ring.height) :
    exceptIsOk (overlay_ring avatar ring) = true := by
  apply overlay_ring_isOk_of
  have hsq1 : (normalize_ring ring avatar.width).width =
      (normalize_ring ring avatar.width).height := by
    unfold normalize_ring
    split
    · rfl
    · exact hsq
  have hle := get_ring_width_le (normalize_ring ring avatar.width)
  omega

/-- C2 witness: the amended theorem at a concrete square ring and avatar. -/
theorem overlay_ring_square_ok_witness :
    ringOpaque3.width = ringOpaque3.height ∧
      exceptIsOk (overlay_ring avatarOpaque3 ringOpaque3) = true :=
  ⟨rfl, overlay_ring_square_ok avatarOpaque3 ringOpaque3 rfl⟩

/-- A 1×1 canvas holding one opaque black pixel. -/
def canvasBlack1 : Image :=
  { width := 1, height := 1, pix := fun _ _ => Pixel.mk 0 0 0 255 }

/-- A 1×1 ring holding one half-transparent red pixel (alpha 128). -/
def ringHalfRed1 : Image :=
  { width := 1, height := 1, pix := fun _ _ => Pixel.mk 255 0 0 128 }

/-- C3 counterexample: a ring pixel with alpha 128 > 0 over an opaque black
canvas pixel is source-over blended, not copied — the overlay output is
(128, 0, 0, 255), not the ring pixel (255, 0, 0, 128).  (In the crate's
`f32` arithmetic the resulting alpha likewise lands at 255, never 128, so
the inequality is insensitive to the exact-arithmetic modelling.) -/
theorem overlay_blend_not_overwrite_cex :
    (ringHalfRed1.pix 0 0).a > 0 ∧
      (overlay_img canvasBlack1 ringHalfRed1).pix 0 0 ≠ ringHalfRed1.pix 0 0 := by
  constructor
  · decide
  · decide

/-- C3 (amended): the overlay step overwrites the canvas pixel only where
the ring pixel is fully opaque (alpha 255) and keeps the canvas pixel only
where the ring pixel is fully transparent (alpha 0); ring pixels of
intermediate alpha are source-over alpha-blended with the canvas beneath. -/
theorem overlay_pixel_rule (bottom top : Image) (x y : ℕ)
    (hx : x < min bottom.width top.width) (hy : y < min bottom.height top.height) :
    ((top.pix x y).a = 255 → (overlay_img bottom top).pix x y = top.pix x y) ∧
    ((top.pix x y).a = 0 → (overlay_img bottom top).pix x y = bottom.pix x y) ∧
    (overlay_img bottom top).pix x y = blendPixel (bottom.pix x y) (top.pix x y) := by
  have hpix : (overlay_img bottom top).pix x y =
      blendPixel (bottom.pix x y) (top.pix x y) := by
    unfold overlay_img
    exact if_pos ⟨hx, hy⟩
  refine ⟨fun h255 => ?_, fun h0 => ?_, hpix⟩
  · rw [hpix]
    unfold blendPixel
    rw [if_neg (by omega), if_pos h255]
  · rw [hpix]
    unfold blendPixel
    rw [if_pos h0]

/-- C3 witness: the amended theorem at concrete 1×1 images — a fully opaque
ring pixel is copied verbatim over the canvas. -/
theorem overlay_pixel_rule_witness :
    (0 < min canvasBlack1.width ringOpaque2.width ∧
      0 < min canvasBlack1.height ringOpaque2.height ∧
      (ringOpaque2.pix 0 0).a = 255) ∧
      (overlay_img canvasBlack1 ringOpaque2).pix 0 0 = ringOpaque2.pix 0 0 :=
  ⟨⟨by decide, by decide, by decide⟩,
    (overlay_pixel_rule canvasBlack1 ringOpaque2 0 0 (by decide) (by decide)).1 (by decide)⟩

/-- A 5×5 canvas holding fully opaque pixels everywhere. -/
def canvasOpaque5 : Image :=
  { width := 5, height := 5, pix := fun _ _ => Pixel.mk 10 20 30 255 }

/-- C4 counterexample: for the odd side s = 5 the code centres the disc at
the integer point (2, 2) with integer radius 2, so the pixel (0, 2) — whose
distance from the float centre (2.5, 2.5) is √6.5 > 2.5 — keeps alpha 255
after masking, contradicting the claim stated with the float centre and
radius s/2. -/
theorem mask_float_center_cex :
    ((0 : ℚ) - 5 / 2) ^ 2 + ((2 : ℚ) - 5 / 2) ^ 2 > ((5 : ℚ) / 2) ^ 2 ∧
      ((apply_transparency canvasOpaque5 (5 / 2) (5 / 2) (5 / 2)).pix 0 2).a = 255 := by
  constructor
  · norm_num
  · decide

/-- C4 (amended): with the centre and radius the code actually computes —
the integer `⌊s/2⌋` for both, via `u32` division — every pixel whose
squared distance from `(⌊s/2⌋, ⌊s/2⌋)` exceeds `⌊s/2⌋²` has alpha 0 after
the disc-masking stage, for every canvas and every side `s` (for even `s`
this coincides with the claim's float reading). -/
theorem mask_alpha_zero_outside (buffer : Image) (s x y : ℕ)
    (h : ((x : ℤ) - (s / 2 : ℕ)) ^ 2 + ((y : ℤ) - (s / 2 : ℕ)) ^ 2 >
      ((s / 2 : ℕ) : ℤ) ^ 2) :
    ((apply_transparency buffer (s / 2) (s / 2) (s / 2)).pix x y).a = 0 := by
  have hpix : (apply_transparency buffer (s / 2) (s / 2) (s / 2)).pix x y =
      if ((x : ℤ) - (s / 2 : ℕ)) ^ 2 + ((y : ℤ) - (s / 2 : ℕ)) ^ 2 >
          ((s / 2 : ℕ) : ℤ) ^ 2 then
        { buffer.pix x y with a := 0 }
      else buffer.pix x y := rfl
  rw [hpix, if_pos h]

/-- C4 witness: the amended theorem at the corner pixel (0, 0) of a concrete
5×5 canvas. -/
theorem mask_alpha_zero_outside_witness :
    (((0 : ℤ) - (5 / 2 : ℕ)) ^ 2 + ((0 : ℤ) - (5 / 2 : ℕ)) ^ 2 > ((5 / 2 : ℕ) : ℤ) ^ 2) ∧
      ((apply_transparency canvasOpaque5 (5 / 2) (5 / 2) (5 / 2)).pix 0 0).a = 0 :=
  ⟨by decide, mask_alpha_zero_outside canvasOpaque5 5 0 0 (by decide)⟩
